import Mathlib

/-!
Shallow embedding of the apple-health-mcp ingestion and retrieval endpoints
(src/api/ingest.py and src/api/data.py).

Modeling conventions:
- Python floats are modeled exactly: finite values are rationals, and the
  special values produced by float of inf, -inf and nan are explicit
  constructors.  The binary rounding of IEEE doubles is outside the embedding.
- The insertion-ordered JSON document stored per day is an association list,
  with dict assignment replacing in place or appending at the end.
- The external store and json.loads are parameters: json.loads is a function
  returning none exactly where the Python call would raise, and the store is a
  partial map from date keys to records.
- A calendar date string YYYY-MM-DD is identified with its epoch day index
  (the strftime formatting is injective), and clock instants are minutes.
-/

namespace AppleHealth

/-- Python float values: finite floats modeled as exact rationals, together
with the special values inf, -inf and nan. -/
inductive PyFloat where
  | finite (q : ℚ)
  | inf (neg : Bool)
  | nan
deriving DecidableEq

/-- One parsed sample of parse_values: float of the stripped line succeeded
(num), or the stripped text is kept (text). -/
inductive Sample where
  | num (x : PyFloat)
  | text (s : String)
deriving DecidableEq

/-- IEEE addition on modeled floats; finite arithmetic is exact. -/
def PyFloat.add : PyFloat → PyFloat → PyFloat
  | .nan, _ => .nan
  | _, .nan => .nan
  | .inf s, .inf t => if s = t then .inf s else .nan
  | .inf s, .finite _ => .inf s
  | .finite _, .inf t => .inf t
  | .finite a, .finite b => .finite (a + b)

/-- IEEE subtraction on modeled floats. -/
def PyFloat.sub : PyFloat → PyFloat → PyFloat
  | .nan, _ => .nan
  | _, .nan => .nan
  | .inf s, .inf t => if s = t then .nan else .inf s
  | .inf s, .finite _ => .inf s
  | .finite _, .inf t => .inf !t
  | .finite a, .finite b => .finite (a - b)

/-- Squaring, used for the pow-2 of the variance terms. -/
def PyFloat.sq : PyFloat → PyFloat
  | .nan => .nan
  | .inf _ => .inf false
  | .finite a => .finite (a * a)

/-- Division by a sample count.  The Python code divides only by nonzero
counts, so the zero case is unreachable there. -/
def PyFloat.divNat : PyFloat → ℕ → PyFloat
  | .nan, _ => .nan
  | .inf s, _ => .inf s
  | .finite a, n => .finite (a / (n : ℚ))

/-- IEEE strict comparison: nan compares false against everything. -/
def PyFloat.lt : PyFloat → PyFloat → Bool
  | .nan, _ => false
  | _, .nan => false
  | .inf true, .inf true => false
  | .inf true, _ => true
  | _, .inf true => false
  | .inf false, _ => false
  | .finite _, .inf false => true
  | .finite a, .finite b => decide (a < b)

/-- IEEE non-strict comparison: nan compares false against everything. -/
def PyFloat.le : PyFloat → PyFloat → Bool
  | .nan, _ => false
  | _, .nan => false
  | .inf true, _ => true
  | _, .inf true => false
  | _, .inf false => true
  | .inf false, .finite _ => false
  | .finite a, .finite b => decide (a ≤ b)

/-- The finite payload of a modeled float, when there is one. -/
def PyFloat.finQ : PyFloat → Option ℚ
  | .finite q => some q
  | _ => none

/-- Python sum over floats: a left fold starting from 0. -/
def pySum (l : List PyFloat) : PyFloat :=
  l.foldl PyFloat.add (.finite 0)

/-- Python min over floats: keep the current value unless the next item
compares strictly below it (so a leading nan would be kept).  Python raises on
an empty list; the code only calls this on nonempty lists, and the empty case
is given the junk value nan. -/
def pyMin : List PyFloat → PyFloat
  | [] => .nan
  | x :: rest => rest.foldl (fun cur y => if y.lt cur then y else cur) x

/-- Python max over floats, dual to pyMin. -/
def pyMax : List PyFloat → PyFloat
  | [] => .nan
  | x :: rest => rest.foldl (fun cur y => if cur.lt y then y else cur) x

/-- Round to the nearest integer with ties to even, as the Python builtin
round does. -/
def rhe {α : Type} [LinearOrderedField α] [FloorRing α]
    [DecidableRel ((· < ·) : α → α → Prop)] (x : α) : ℤ :=
  if x - ⌊x⌋ < 1 / 2 then ⌊x⌋
  else if (1 / 2 : α) < x - ⌊x⌋ then ⌊x⌋ + 1
  else if 2 ∣ ⌊x⌋ then ⌊x⌋ else ⌊x⌋ + 1

/-- Python round of a rational to nd decimal places. -/
def roundTo (nd : ℕ) (q : ℚ) : ℚ := (rhe (q * 10 ^ nd) : ℚ) / 10 ^ nd

/-- Python round with an ndigits argument on a float: non-finite values are
returned unchanged by float round with ndigits. -/
def PyFloat.round (nd : ℕ) : PyFloat → PyFloat
  | .nan => .nan
  | .inf s => .inf s
  | .finite a => .finite (roundTo nd a)

open Classical in
/-- Round half to even on a real number, used after the irrational square root
inside the glucose standard deviation. -/
noncomputable def rheR (x : ℝ) : ℤ := rhe x

/-- Python round to nd decimals on a real number. -/
noncomputable def roundToR (nd : ℕ) (x : ℝ) : ℝ := (rheR (x * 10 ^ nd) : ℝ) / 10 ^ nd

/-- Result type of float exponentiation by one half: the square root of an
exact rational may be irrational, so the finite values here are reals. -/
inductive PyFloatExt where
  | finiteR (x : ℝ)
  | infR (neg : Bool)
  | nanR

/-- Python x to the power 0.5.  IEEE pow maps both infinities to plus
infinity; a negative finite base gives a complex number in Python, a case
unreachable from this code because the variance of rationals is nonnegative,
modeled as nan. -/
noncomputable def pyPowHalf : PyFloat → PyFloatExt
  | .nan => .nanR
  | .inf _ => .infR false
  | .finite q => if q < 0 then .nanR else .finiteR (Real.sqrt (q : ℝ))

/-- Python round with ndigits 1 on the extended value. -/
noncomputable def PyFloatExt.round1 : PyFloatExt → PyFloatExt
  | .finiteR x => .finiteR (roundToR 1 x)
  | .infR s => .infR s
  | .nanR => .nanR

/-- Digit test over the ASCII decimal digits, as the float grammar uses. -/
def isDig (c : Char) : Bool := decide ('0' ≤ c) && decide (c ≤ '9')

/-- ASCII lowercasing, the fragment of the Python str.lower method exercised
by this code (field names and stage tags are ASCII). -/
def asciiLower (c : Char) : Char :=
  if 'A' ≤ c ∧ c ≤ 'Z' then Char.ofNat (c.toNat + 32) else c

/-- Whitespace stripped by the Python str.strip method (its additional unicode
space characters never arise here). -/
def pyWs (c : Char) : Bool :=
  c = ' ' || c = '\t' || c = '\n' || c = '\r' || c = '\x0b' || c = '\x0c'

/-- Python str.strip: drop leading and trailing whitespace. -/
def pyStrip (cs : List Char) : List Char :=
  ((cs.dropWhile pyWs).reverse.dropWhile pyWs).reverse

/-- The str.replace of CRLF by LF: one left-to-right non-overlapping pass. -/
def replCRLF : List Char → List Char
  | '\r' :: '\n' :: rest => '\n' :: replCRLF rest
  | c :: rest => c :: replCRLF rest
  | [] => []

/-- The str.replace of CR by LF (no CRLF pair remains after replCRLF). -/
def replCR (cs : List Char) : List Char :=
  cs.map (fun c => if c = '\r' then '\n' else c)

/-- Line-ending normalization followed by str.split on LF. -/
def linesOf (decoded : List Char) : List (List Char) :=
  (replCR (replCRLF decoded)).splitOn '\n'

/-- Scan a Python digit group: a run of digits in which a single underscore
may sit between two digits.  Returns the value read, the number of digits
consumed, and the unconsumed remainder. -/
def digitRun : ℕ → ℕ → List Char → ℕ × ℕ × List Char
  | acc, nd, [] => (acc, nd, [])
  | acc, nd, c :: rest =>
    if isDig c then digitRun (10 * acc + (c.toNat - 48)) (nd + 1) rest
    else if c = '_' then
      match rest with
      | d :: rest2 =>
        if isDig d then digitRun (10 * acc + (d.toNat - 48)) (nd + 1) rest2
        else (acc, nd, c :: rest)
      | [] => (acc, nd, [c])
    else (acc, nd, c :: rest)

/-- Strip one optional leading sign, reporting whether it was a minus. -/
def splitSign (v : List Char) : Bool × List Char :=
  match v with
  | '+' :: r => (false, r)
  | '-' :: r => (true, r)
  | r => (false, r)

/-- The optional dot-and-fraction suffix after an integer part of value iv:
a dot followed by an optional digit group extends the value, anything else is
left unconsumed. -/
def parseFrac (iv : ℕ) (rest : List Char) : Option (ℚ × List Char) :=
  match rest with
  | '.' :: rest2 =>
    match rest2 with
    | d :: _ =>
      if isDig d then
        let rf := digitRun 0 0 rest2
        some ((iv : ℚ) + (rf.1 : ℚ) / 10 ^ rf.2.1, rf.2.2)
      else some ((iv : ℚ), rest2)
    | [] => some ((iv : ℚ), [])
  | other => some ((iv : ℚ), other)

/-- Parse the mantissa of a Python float literal: an integer part with an
optional fractional part, or a dot-led fractional part.  Returns the exact
value and the remainder of the input. -/
def parseMantissa (cs : List Char) : Option (ℚ × List Char) :=
  match cs with
  | [] => none
  | c :: rest =>
    if c = '.' then
      match rest with
      | d :: _ =>
        if isDig d then
          let r := digitRun 0 0 rest
          some ((r.1 : ℚ) / 10 ^ r.2.1, r.2.2)
        else none
      | [] => none
    else if isDig c then
      let ri := digitRun 0 0 (c :: rest)
      parseFrac ri.1 ri.2.2
    else none

/-- Parse the exponent body after the letter e: optional sign then a digit
group that must end the input. -/
def parseExpBody (cs : List Char) : Option ℤ :=
  let p := splitSign cs
  match p.2 with
  | d :: _ =>
    if isDig d then
      let r := digitRun 0 0 p.2
      if r.2.2 = [] then some (if p.1 then -(r.1 : ℤ) else (r.1 : ℤ)) else none
    else none
  | [] => none

/-- The Python float constructor on an already stripped string: optional sign,
then the case-insensitive words inf, infinity or nan, or a mantissa with an
optional exponent part.  Returns none exactly where float would raise. -/
def pyFloatOfLine (v : List Char) : Option PyFloat :=
  let p := splitSign v
  let low := p.2.map asciiLower
  if low = "inf".toList ∨ low = "infinity".toList then some (.inf p.1)
  else if low = "nan".toList then some .nan
  else
    match parseMantissa p.2 with
    | none => none
    | some m =>
      match m.2 with
      | [] => some (.finite (if p.1 then -m.1 else m.1))
      | e :: rest =>
        if e = 'e' ∨ e = 'E' then
          match parseExpBody rest with
          | some ex =>
            some (.finite (if p.1 then -(m.1 * (10 : ℚ) ^ ex) else m.1 * (10 : ℚ) ^ ex))
          | none => none
        else none

/-- Handling of one split line inside parse_values: strip, drop when empty,
try float, fall back to the stripped text. -/
def lineToSample (line : List Char) : Option Sample :=
  let v := pyStrip line
  if v.isEmpty then none
  else
    match pyFloatOfLine v with
    | some x => some (.num x)
    | none => some (.text (String.mk v))

/-- parse_values from src/api/ingest.py, taking the URL-decoded text: the
unquote call is transport decoding done before the parser contract of the
spec, section 4.1, applies. -/
def parse_values (decoded : List Char) : List Sample :=
  (linesOf decoded).filterMap lineToSample

/-- The numeric filter used throughout the statistics functions: the
isinstance test for int or float keeps exactly the num samples. -/
def numsOf (values : List Sample) : List PyFloat :=
  values.filterMap (fun s => match s with | .num x => some x | .text _ => none)

/-- The five heart-rate zone counters of compute_hr_zones. -/
structure HrZoneCounts where
  rest : ℕ
  light : ℕ
  moderate : ℕ
  hard : ℕ
  maxZone : ℕ
deriving DecidableEq

/-- The rounded per-zone percentages (the source dict zone_pct; the field
maxZone models the source key max). -/
structure ZonePcts where
  rest : ℤ
  light : ℤ
  moderate : ℤ
  hard : ℤ
  maxZone : ℤ
deriving DecidableEq

/-- The result dict of compute_hr_zones in the nonempty case. -/
structure HrZones where
  zones : HrZoneCounts
  zonePct : ZonePcts
  trainingLoad : ℕ
  highIntensity : ℕ
deriving DecidableEq

/-- compute_hr_zones returns the empty dict when no numeric samples remain. -/
inductive HrZonesResult where
  | empty
  | stats (z : HrZones)
deriving DecidableEq

/-- The if-elif bucket chain of compute_hr_zones on one sample.  A nan sample
fails every comparison and lands in the final max bucket. -/
def addToZone (z : HrZoneCounts) (hr : PyFloat) : HrZoneCounts :=
  if hr.lt (.finite 100) then { z with rest := z.rest + 1 }
  else if hr.lt (.finite 120) then { z with light := z.light + 1 }
  else if hr.lt (.finite 140) then { z with moderate := z.moderate + 1 }
  else if hr.lt (.finite 160) then { z with hard := z.hard + 1 }
  else { z with maxZone := z.maxZone + 1 }

/-- compute_hr_zones from src/api/ingest.py. -/
def compute_hr_zones (values : List Sample) : HrZonesResult :=
  let nums := numsOf values
  if nums.isEmpty then .empty
  else
    let z := nums.foldl addToZone ⟨0, 0, 0, 0, 0⟩
    let total := nums.length
    .stats
      { zones := z
        zonePct :=
          { rest := rhe ((z.rest : ℚ) / total * 100)
            light := rhe ((z.light : ℚ) / total * 100)
            moderate := rhe ((z.moderate : ℚ) / total * 100)
            hard := rhe ((z.hard : ℚ) / total * 100)
            maxZone := rhe ((z.maxZone : ℚ) / total * 100) }
        trainingLoad := z.moderate + z.hard + z.maxZone
        highIntensity := z.hard + z.maxZone }

/-- The four sleep stage counters of compute_sleep_stats. -/
structure SleepStages where
  rem : ℕ
  core : ℕ
  deep : ℕ
  awake : ℕ
deriving DecidableEq

/-- Substring containment over character lists, the Python in operator on
strings. -/
def containsSub (needle hay : List Char) : Bool :=
  hay.tails.any (fun t => needle.isPrefixOf t)

/-- Stage classification of one sample in compute_sleep_stats: substring
membership tests in source order; numeric samples and unrecognized strings
contribute nothing. -/
def addStage (st : SleepStages) (s : Sample) : SleepStages :=
  match s with
  | .num _ => st
  | .text v =>
    let cs := v.toList
    if containsSub ("REM".toList) cs then { st with rem := st.rem + 1 }
    else if containsSub ("Core".toList) cs || containsSub ("Light".toList) cs then
      { st with core := st.core + 1 }
    else if containsSub ("Deep".toList) cs then { st with deep := st.deep + 1 }
    else if containsSub ("Awake".toList) cs || containsSub ("Wake".toList) cs then
      { st with awake := st.awake + 1 }
    else st

/-- The stage histogram of compute_sleep_stats over the whole sample list. -/
def sleepStages (values : List Sample) : SleepStages :=
  values.foldl addStage ⟨0, 0, 0, 0⟩

/-- The sum of the four stage counters. -/
def SleepStages.total (st : SleepStages) : ℕ := st.rem + st.core + st.deep + st.awake

/-- One computed metric summary: the possible result dict shapes of the
statistics functions of src/api/ingest.py. -/
inductive MetricSummary where
  | countOnly (count : ℕ)
  | generic (avg mn mx : PyFloat) (count : ℕ) (hrZones : Option HrZonesResult)
  | sleepFallback (values : List Sample)
  | sleep (stages : SleepStages) (fragmentationPct : ℚ) (quality : String)
      (hasRem hasDeep : Bool)
  | bp (sysAvg sysMin sysMax diaAvg diaMin diaMax : PyFloat)
      (count elevated : ℕ)
  | glucose (avg mn mx : PyFloat) (stdDev : PyFloatExt) (count : ℕ)
      (inRangePct : ℚ)

/-- compute_sleep_stats from src/api/ingest.py. -/
def compute_sleep_stats (values : List Sample) : MetricSummary :=
  let st := sleepStages values
  if st.total = 0 then .sleepFallback values
  else
    let frag := roundTo 1 ((st.awake : ℚ) / st.total * 100)
    let quality :=
      if frag < 20 ∧ 0 < st.rem ∧ 0 < st.deep then "good"
      else if frag < 35 then "fair" else "poor"
    .sleep st frag quality (decide (0 < st.rem)) (decide (0 < st.deep))

/-- compute_blood_pressure_stats from src/api/ingest.py. -/
def compute_blood_pressure_stats (sysValues diaValues : List Sample) : MetricSummary :=
  let sn := numsOf sysValues
  let dn := numsOf diaValues
  if sn.isEmpty || dn.isEmpty then .countOnly 0
  else
    let count := min sn.length dn.length
    let sn2 := sn.take count
    let dn2 := dn.take count
    let elevated :=
      (sn2.zip dn2).countP
        (fun p => PyFloat.le (.finite 140) p.1 || PyFloat.le (.finite 90) p.2)
    .bp ((pySum sn2).divNat count |>.round 1) ((pyMin sn2).round 1)
      ((pyMax sn2).round 1) ((pySum dn2).divNat count |>.round 1)
      ((pyMin dn2).round 1) ((pyMax dn2).round 1) count elevated

/-- compute_blood_glucose_stats from src/api/ingest.py.  The standard
deviation is the variance to the power 0.5 and goes through a real square
root, hence the extended value type. -/
noncomputable def compute_blood_glucose_stats (values : List Sample) : MetricSummary :=
  let nums := numsOf values
  if nums.isEmpty then .countOnly 0
  else
    let count := nums.length
    let avg := (pySum nums).divNat count
    let variance := (pySum (nums.map (fun x => (x.sub avg).sq))).divNat count
    let stdDev := (pyPowHalf variance).round1
    let inRange :=
      nums.countP (fun v => PyFloat.le (.finite 70) v && PyFloat.le v (.finite 180))
    .glucose (avg.round 1) ((pyMin nums).round 1) ((pyMax nums).round 1) stdDev count
      (roundTo 1 ((inRange : ℚ) / count * 100))

/-- Python str.lower over the characters of a string. -/
def pyLower (s : String) : List Char := s.toList.map asciiLower

/-- The key normalization key.lower().strip() at the head of compute_stats. -/
def keyNorm (key : String) : List Char := pyStrip (pyLower key)

/-- compute_stats from src/api/ingest.py: the metric router and generic
numeric summary.  The heart-rate zones are computed on the already filtered
numeric list, as at the call site in the source. -/
noncomputable def compute_stats (values : List Sample) (key : String) : MetricSummary :=
  let kl := keyNorm key
  if kl = "sleep".toList then compute_sleep_stats values
  else if kl = "bloodglucose".toList then compute_blood_glucose_stats values
  else
    let nums := numsOf values
    if nums.isEmpty then .countOnly values.length
    else
      .generic ((pySum nums).divNat nums.length |>.round 2) ((pyMin nums).round 2)
        ((pyMax nums).round 2) nums.length
        (if kl = "heartrate".toList then some (compute_hr_zones (nums.map .num))
         else none)

/-- One value of the stored daily JSON document: a computed summary, the
update-timestamp string, or any other JSON value kept as its serialized text
(the merge never inspects values). -/
inductive RecVal where
  | summary (m : MetricSummary)
  | str (s : String)
  | blob (j : String)

/-- The insertion-ordered daily JSON document. -/
abbrev DailyRecord := List (String × RecVal)

/-- Python dict assignment on an insertion-ordered record: replace in place
when the key exists, append otherwise. -/
def setKey : DailyRecord → String → RecVal → DailyRecord
  | [], k, v => [(k, v)]
  | (k0, v0) :: rest, k, v =>
    if k0 = k then (k0, v) :: rest else (k0, v0) :: setKey rest k v

/-- Lookup of a key in the daily record. -/
def lookupKey : DailyRecord → String → Option RecVal
  | [], _ => none
  | (k0, v0) :: rest, k => if k0 = k then some v0 else lookupKey rest k

/-- The systolic field-name marker searched for by do_POST. -/
def sysSub : List Char := "bloodpressuresystolic".toList

/-- The diastolic field-name marker searched for by do_POST. -/
def diaSub : List Char := "bloodpressurediastolic".toList

/-- One step of the field-name scan of do_POST: a name containing the
systolic marker overwrites the first slot, elif the diastolic marker
overwrites the second slot. -/
def bpScanStep (acc : Option String × Option String) (p : String × List String) :
    Option String × Option String :=
  if containsSub sysSub (pyLower p.1) then (some p.1, acc.2)
  else if containsSub diaSub (pyLower p.1) then (acc.1, some p.1)
  else acc

/-- The field-name scan of do_POST: iterate the submitted names in order; the
last matching name wins each slot. -/
def bpScan (fd : List (String × List String)) : Option String × Option String :=
  fd.foldl bpScanStep (none, none)

/-- The raw text of a field: its first value, or the empty string when the
value list is empty. -/
def firstValue (fd : List (String × List String)) (k : String) : String :=
  ((fd.lookup k).getD []).headD ""

/-- The summary writes performed by one do_POST request: the paired
blood-pressure entry when both markers were found, then one generic entry per
field in form order, skipping the two blood-pressure field families. -/
noncomputable def computedPairs (fd : List (String × List String)) :
    List (String × RecVal) :=
  (match bpScan fd with
   | (some sk, some dk) =>
     [("bloodpressure",
       RecVal.summary
         (compute_blood_pressure_stats (parse_values (firstValue fd sk).toList)
           (parse_values (firstValue fd dk).toList)))]
   | _ => []) ++
  fd.filterMap
    (fun p =>
      if containsSub sysSub (pyLower p.1) || containsSub diaSub (pyLower p.1) then none
      else
        some (p.1, RecVal.summary (compute_stats (parse_values (p.2.headD "").toList) p.1)))

/-- Sequential dict assignment of a list of key-value pairs. -/
def applyPairs (r : DailyRecord) (ps : List (String × RecVal)) : DailyRecord :=
  ps.foldl (fun a p => setKey a p.1 p.2) r

/-- The compute-and-merge body of do_POST once the prior record is decoded:
set the computed summaries into the prior record, then stamp the reserved
update-timestamp key. -/
noncomputable def ingestMerge (prior : DailyRecord) (fd : List (String × List String))
    (ts : String) : DailyRecord :=
  setKey (applyPairs prior (computedPairs fd)) "_updated" (.str ts)

/-- do_POST of src/api/ingest.py including the prior-record decode.  jsonLoads
models json.loads and returns none exactly where that call raises; an uncaught
raise aborts the request before the single store write, so the result none
means nothing is stored.  Python truthiness makes an absent or empty prior
value the empty record. -/
noncomputable def ingest (jsonLoads : String → Option DailyRecord)
    (existing : Option String) (fd : List (String × List String)) (ts : String) :
    Option DailyRecord :=
  match existing with
  | none => some (ingestMerge [] fd ts)
  | some s =>
    if s = "" then some (ingestMerge [] fd ts)
    else
      match jsonLoads s with
      | some prior => some (ingestMerge prior fd ts)
      | none => none

/-- The business date of get_pacific_now in src/api/ingest.py: the epoch day
of the clock instant shifted by the fixed offset UTC-8. -/
def pacificDate (utcMin : ℤ) : ℤ := (utcMin - 8 * 60).fdiv (24 * 60)

/-- The date scanned at index i by do_GET of src/api/data.py: datetime.now()
carries no timezone, so it reads the server local clock, utcMin plus the
server offset, before subtracting i days. -/
def retrievalDate (utcMin localOffset : ℤ) (i : ℕ) : ℤ :=
  (utcMin + localOffset - i * (24 * 60)).fdiv (24 * 60)

/-- do_GET of src/api/data.py over an abstract store keyed by epoch day:
scan the day indices, keep the stored records, skip absent dates.  The days
query parameter defaults to 7 when absent. -/
def retrieve (store : ℤ → Option DailyRecord) (utcMin localOffset : ℤ)
    (daysQ : Option ℕ) : List (ℤ × DailyRecord) :=
  (List.range (daysQ.getD 7)).filterMap
    (fun i =>
      (store (retrievalDate utcMin localOffset i)).map
        (fun d => (retrievalDate utcMin localOffset i, d)))

/-- Modelled from the spec wording of claim C3: a decimal numeral with
optional sign and optional fractional part (the comparison grammar the claim
asserts the parser recognizes). -/
def specDecimalAccepts (v : List Char) : Bool :=
  let cs := (splitSign v).2
  let ds := cs.takeWhile isDig
  let rest := cs.dropWhile isDig
  !ds.isEmpty &&
    (rest.isEmpty ||
      (match rest with
       | '.' :: fs => fs.all isDig
       | _ => false))

/-- The count field of a summary dict, where present. -/
def MetricSummary.countField : MetricSummary → Option ℕ
  | .countOnly n => some n
  | .generic _ _ _ n _ => some n
  | .bp _ _ _ _ _ _ n _ => some n
  | .glucose _ _ _ _ n _ => some n
  | _ => none

/-- The elevated_readings field of a blood-pressure summary. -/
def MetricSummary.bpElevated : MetricSummary → Option ℕ
  | .bp _ _ _ _ _ _ _ e => some e
  | _ => none

/-- The avg, min, max, count and hr_zones fields of a generic summary. -/
def MetricSummary.genericParts :
    MetricSummary → Option (PyFloat × PyFloat × PyFloat × ℕ × Option HrZonesResult)
  | .generic a b c n hz => some (a, b, c, n, hz)
  | _ => none

/-- The raw zone counters buried in a generic summary with hr_zones. -/
def MetricSummary.zoneCounts : MetricSummary → Option HrZoneCounts
  | .generic _ _ _ _ (some (.stats z)) => some z.zones
  | _ => none

/-- The std_dev field of a glucose summary. -/
def MetricSummary.stdDevField : MetricSummary → Option PyFloatExt
  | .glucose _ _ _ sd _ _ => some sd
  | _ => none

/-- The in_range_pct field of a glucose summary. -/
def MetricSummary.inRangeField : MetricSummary → Option ℚ
  | .glucose _ _ _ _ _ p => some p
  | _ => none

/-- The stages, fragmentation, quality and stage-presence fields of a sleep
summary. -/
def MetricSummary.sleepParts :
    MetricSummary → Option (SleepStages × ℚ × String × Bool × Bool)
  | .sleep st f q hr hd => some (st, f, q, hr, hd)
  | _ => none

/-- The Awake share of classified samples, times 100, rounded to one decimal:
the fragmentation formula of the spec. -/
def fragSpec (values : List Sample) : ℚ :=
  roundTo 1 (((sleepStages values).awake : ℚ) / (sleepStages values).total * 100)

/-- The three-level quality verdict as compute_sleep_stats produces it. -/
def sleepQuality (values : List Sample) : String :=
  if fragSpec values < 20 ∧ 0 < (sleepStages values).rem ∧ 0 < (sleepStages values).deep
    then "good"
  else if fragSpec values < 35 then "fair" else "poor"

/-- The last value assigned to a key by a pair list, when any. -/
def lastVal : List (String × RecVal) → String → Option RecVal
  | [], _ => none
  | p :: ps, k =>
    match lastVal ps k with
    | some v => some v
    | none => if p.1 = k then some p.2 else none

/-- Concrete decode function for the C2 counterexample; it agrees with
json.loads on the strings it is applied to (the empty object is valid JSON,
the word oops is not and json.loads raises on it). -/
def jlTest (s : String) : Option DailyRecord :=
  if s = "\x7b\x7d" then some [] else none

/-! Helper lemmas about rounding. -/

theorem rhe_cases {α : Type} [LinearOrderedField α] [FloorRing α]
    [DecidableRel ((· < ·) : α → α → Prop)] (x : α) :
    rhe x = ⌊x⌋ ∨ rhe x = ⌊x⌋ + 1 := by
  unfold rhe
  split_ifs <;> simp

theorem rhe_intCast {α : Type} [LinearOrderedField α] [FloorRing α]
    [DecidableRel ((· < ·) : α → α → Prop)] (n : ℤ) :
    rhe ((n : α)) = n := by
  unfold rhe
  rw [Int.floor_intCast]
  have h : ((n : α) - (n : α)) < 1 / 2 := by norm_num
  rw [if_pos h]

theorem le_rhe {α : Type} [LinearOrderedField α] [FloorRing α]
    [DecidableRel ((· < ·) : α → α → Prop)] (n : ℤ) (x : α)
    (h : (n : α) ≤ x) : n ≤ rhe x := by
  have hf : n ≤ ⌊x⌋ := Int.le_floor.mpr h
  rcases rhe_cases x with h1 | h1 <;> omega

theorem rhe_le {α : Type} [LinearOrderedField α] [FloorRing α]
    [DecidableRel ((· < ·) : α → α → Prop)] (n : ℤ) (x : α)
    (h : x ≤ (n : α)) : rhe x ≤ n := by
  rcases eq_or_lt_of_le h with h1 | h1
  · rw [h1, rhe_intCast]
  · have hf : ⌊x⌋ < n := Int.floor_lt.mpr h1
    rcases rhe_cases x with h2 | h2 <;> omega

theorem roundTo_nonneg (nd : ℕ) (q : ℚ) (h : 0 ≤ q) : 0 ≤ roundTo nd q := by
  unfold roundTo
  have h10 : (0 : ℚ) < 10 ^ nd := by positivity
  apply div_nonneg _ (le_of_lt h10)
  have : (0 : ℤ) ≤ rhe (q * 10 ^ nd) := by
    apply le_rhe
    push_cast
    positivity
  exact_mod_cast this

theorem roundTo_le_intCast (nd : ℕ) (q : ℚ) (n : ℤ)
    (h : q ≤ (n : ℚ)) : roundTo nd q ≤ (n : ℚ) := by
  unfold roundTo
  have h10 : (0 : ℚ) < 10 ^ nd := by positivity
  rw [div_le_iff₀ h10]
  have hb : rhe (q * 10 ^ nd) ≤ n * 10 ^ nd := by
    apply rhe_le
    push_cast
    exact mul_le_mul_of_nonneg_right h (le_of_lt h10)
  calc ((rhe (q * 10 ^ nd) : ℚ)) ≤ ((n * 10 ^ nd : ℤ) : ℚ) := by exact_mod_cast hb
    _ = (n : ℚ) * 10 ^ nd := by push_cast; ring

/-! Helper lemmas about the record operations. -/

theorem lookupKey_setKey (r : DailyRecord) (k k0 : String) (v : RecVal) :
    lookupKey (setKey r k v) k0 = if k0 = k then some v else lookupKey r k0 := by
  induction r with
  | nil =>
    by_cases h : k0 = k <;> simp [setKey, lookupKey, h]
    exact fun h2 => absurd h2.symm h
  | cons p rest ih =>
    obtain ⟨k1, v1⟩ := p
    by_cases h1 : k1 = k
    · subst h1
      by_cases h0 : k0 = k1
      · subst h0
        simp [setKey, lookupKey]
      · have h0s : ¬ k1 = k0 := fun h2 => h0 h2.symm
        simp [setKey, lookupKey, h0, h0s]
    · by_cases h0 : k0 = k1
      · subst h0
        have hk : ¬ k0 = k := fun h2 => h1 (h2 ▸ rfl)
        simp [setKey, lookupKey, h1, hk]
      · have h0s : ¬ k1 = k0 := fun h2 => h0 h2.symm
        simp [setKey, lookupKey, h1, h0s, ih]

theorem lookupKey_applyPairs (ps : List (String × RecVal)) (r : DailyRecord)
    (k : String) :
    lookupKey (applyPairs r ps) k =
      ((lastVal ps k).orElse (fun _ => lookupKey r k)) := by
  induction ps generalizing r with
  | nil => simp [applyPairs, lastVal, Option.orElse]
  | cons p ps ih =>
    have hstep : applyPairs r (p :: ps) = applyPairs (setKey r p.1 p.2) ps := by
      simp [applyPairs]
    rw [hstep, ih]
    cases hl : lastVal ps k with
    | some v => simp [lastVal, hl, Option.orElse]
    | none =>
      simp only [lastVal, hl, Option.orElse, lookupKey_setKey]
      by_cases hk : p.1 = k
      · simp [hk]
      · have hk2 : ¬ k = p.1 := fun h2 => hk h2.symm
        simp [hk, hk2]

theorem lastVal_eq_none (ps : List (String × RecVal)) (k : String)
    (h : ∀ p ∈ ps, p.1 ≠ k) : lastVal ps k = none := by
  induction ps with
  | nil => rfl
  | cons p ps ih =>
    have hp : p.1 ≠ k := h p (List.mem_cons_self p ps)
    have hr : lastVal ps k = none := ih (fun q hq => h q (List.mem_cons_of_mem p hq))
    simp [lastVal, hr, hp]

/-! Claim theorems. -/

/-- C9: merging the same submission twice in a row into a prior daily record
gives, at every key other than the reserved update-timestamp key, the same
value as merging it once. -/
theorem C9_sequential_merge_idempotent (prior : DailyRecord)
    (fd : List (String × List String)) (ts1 ts2 : String) (k : String)
    (hk : k ≠ "_updated") :
    lookupKey (ingestMerge (ingestMerge prior fd ts1) fd ts2) k =
      lookupKey (ingestMerge prior fd ts1) k := by
  unfold ingestMerge
  rw [lookupKey_setKey, lookupKey_setKey, if_neg hk, if_neg hk,
    lookupKey_applyPairs, lookupKey_applyPairs]
  cases hl : lastVal (computedPairs fd) k with
  | some v => simp [Option.orElse]
  | none => simp [Option.orElse, lookupKey_setKey, hk, lookupKey_applyPairs, hl]

/-- Witness for C9 at a concrete prior record, submission and key. -/
theorem C9_sequential_merge_idempotent_witness :
    ("steps" : String) ≠ "_updated" ∧
      lookupKey
          (ingestMerge (ingestMerge [] [("steps", ["5"])] "t1") [("steps", ["5"])] "t2")
          "steps" =
        lookupKey (ingestMerge [] [("steps", ["5"])] "t1") "steps" :=
  ⟨by decide, C9_sequential_merge_idempotent [] [("steps", ["5"])] "t1" "t2" "steps"
    (by decide)⟩

/-- C8: when a metric routed to the generic numeric summary has no numeric
samples at all, the result is the single count field holding the number of all
input samples, text samples included. -/
theorem C8_generic_empty_counts_all (values : List Sample) (key : String)
    (h1 : keyNorm key ≠ "sleep".toList) (h2 : keyNorm key ≠ "bloodglucose".toList)
    (h3 : numsOf values = []) :
    compute_stats values key = .countOnly values.length := by
  unfold compute_stats
  rw [if_neg h1, if_neg h2]
  simp [h3]

/-- Witness for C8: two text samples under an ordinary metric name yield the
count two. -/
theorem C8_generic_empty_counts_all_witness :
    keyNorm "steps" ≠ "sleep".toList ∧ keyNorm "steps" ≠ "bloodglucose".toList ∧
      numsOf [Sample.text "a", Sample.text "b"] = [] ∧
      compute_stats [Sample.text "a", Sample.text "b"] "steps" =
        .countOnly [Sample.text "a", Sample.text "b"].length :=
  ⟨by decide, by decide, by decide,
    C8_generic_empty_counts_all [Sample.text "a", Sample.text "b"] "steps"
      (by decide) (by decide) (by decide)⟩

/-- C2 counterexample: the claim says an unreadable prior value is treated as
an empty prior record; in the code json.loads raises instead, the request
aborts and nothing is stored, while the same request with no prior value would
store a record. -/
theorem C2_counterexample :
    ingest jlTest (some "oops") [("steps", ["3"])] "t" = none ∧
      ingest jlTest none [("steps", ["3"])] "t" ≠ none := by
  constructor
  · rfl
  · intro h
    simp [ingest] at h

/-- C2 amended: an absent or empty prior value is treated as the empty prior
record; an unreadable nonempty prior value aborts the request before any
write; and whatever is stored is always one whole merged document. -/
theorem C2_amended_atomic_merge (jl : String → Option DailyRecord)
    (existing : Option String) (fd : List (String × List String)) (ts : String) :
    ((existing = none ∨ existing = some "") →
        ingest jl existing fd ts = some (ingestMerge [] fd ts)) ∧
      (∀ s, existing = some s → s ≠ "" → jl s = none →
        ingest jl existing fd ts = none) ∧
      (∀ r, ingest jl existing fd ts = some r →
        ∃ prior : DailyRecord, r = ingestMerge prior fd ts) := by
  refine ⟨?_, ?_, ?_⟩
  · rintro (rfl | rfl)
    · rfl
    · simp [ingest]
  · rintro s rfl hs hjl
    simp [ingest, hs, hjl]
  · intro r hr
    cases existing with
    | none =>
      simp only [ingest] at hr
      exact ⟨[], (Option.some_inj.mp hr).symm⟩
    | some s =>
      simp only [ingest] at hr
      by_cases hs : s = ""
      · rw [if_pos hs] at hr
        exact ⟨[], (Option.some_inj.mp hr).symm⟩
      · rw [if_neg hs] at hr
        cases hjl : jl s with
        | none => rw [hjl] at hr; exact absurd hr (by simp)
        | some prior => rw [hjl] at hr; exact ⟨prior, (Option.some_inj.mp hr).symm⟩

/-- Witness for C2 amended at the concrete decoder and inputs of the
counterexample. -/
theorem C2_amended_atomic_merge_witness :
    ("oops" : String) ≠ "" ∧ jlTest "oops" = none ∧
      ingest jlTest (some "oops") [("steps", ["3"])] "t" = none :=
  ⟨by decide, rfl,
    (C2_amended_atomic_merge jlTest (some "oops") [("steps", ["3"])] "t").2.1
      "oops" rfl (by decide) rfl⟩

/-- C4 (code bug): at 04:00 UTC of epoch day 100 on a server whose local
clock is UTC, the ingestion business date is day 99, but the retrieval scan
with one day requested reads only day 100, so the record stored under the
current Pacific business date is missed even though the claim requires it in
the result. -/
theorem C4_retrieval_uses_local_not_pacific_date :
    pacificDate (100 * 1440 + 240) = 99 ∧
      retrievalDate (100 * 1440 + 240) 0 0 = 100 ∧
      (fun d => if d = (99 : ℤ) then some [("steps", RecVal.blob "x")] else none) 99 =
        some [("steps", RecVal.blob "x")] ∧
      retrieve (fun d => if d = (99 : ℤ) then some [("steps", RecVal.blob "x")] else none)
          (100 * 1440 + 240) 0 (some 1) = [] :=
  ⟨by decide, by decide, rfl, rfl⟩

attribute [local semireducible] Rat.mul Rat.inv Rat.add Rat.sub in
/-- C1 counterexample: the claim puts one sample in the rest zone and counts
72 in the light zone; the code buckets 72 below the 100 threshold, so the rest
zone holds two samples. -/
theorem C1_counterexample :
    (compute_stats (parse_values ("65\n72\n145\n".toList)) "heartrate").zoneCounts =
        some ⟨2, 0, 0, 1, 0⟩ ∧
      (⟨2, 0, 0, 1, 0⟩ : HrZoneCounts) ≠ ⟨1, 0, 0, 1, 0⟩ := by
  constructor <;> decide

attribute [local semireducible] Rat.mul Rat.inv Rat.add Rat.sub in
/-- C1 amended: the heart-rate scenario evaluates to avg 94, min 65, max 145,
count 3, zones rest 2, light 0, moderate 0, hard 1, max 0 (both 65 and 72 lie
below 100 and land in rest), training load 1 and high intensity 1. -/
theorem C1_heartrate_scenario :
    (compute_stats (parse_values ("65\n72\n145\n".toList)) "heartrate").genericParts =
      some (.finite 94, .finite 65, .finite 145, 3,
        some (.stats ⟨⟨2, 0, 0, 1, 0⟩, ⟨67, 0, 0, 33, 0⟩, 1, 1⟩)) := by
  decide

/-- C5: the paired blood-pressure analysis returns the bare count zero when
either side has no numeric samples; otherwise its count is the minimum of the
two numeric lengths, the elevated count is taken over the positional pairs of
the truncated sides with the threshold systolic at least 140 or diastolic at
least 90, and the elevated count never exceeds the count. -/
theorem C5_blood_pressure_pairing (sysValues diaValues : List Sample) :
    (numsOf sysValues = [] ∨ numsOf diaValues = [] →
        compute_blood_pressure_stats sysValues diaValues = .countOnly 0) ∧
      (numsOf sysValues ≠ [] → numsOf diaValues ≠ [] →
        (compute_blood_pressure_stats sysValues diaValues).countField =
            some (min (numsOf sysValues).length (numsOf diaValues).length) ∧
          (compute_blood_pressure_stats sysValues diaValues).bpElevated =
            some
              ((((numsOf sysValues).take
                    (min (numsOf sysValues).length (numsOf diaValues).length)).zip
                  ((numsOf diaValues).take
                    (min (numsOf sysValues).length (numsOf diaValues).length))).countP
                (fun p => PyFloat.le (.finite 140) p.1 || PyFloat.le (.finite 90) p.2)) ∧
          ∀ e, (compute_blood_pressure_stats sysValues diaValues).bpElevated = some e →
            e ≤ min (numsOf sysValues).length (numsOf diaValues).length) := by
  constructor
  · intro h
    rcases h with h | h <;> simp [compute_blood_pressure_stats, h]
  · intro h1 h2
    have e1 : (numsOf sysValues).isEmpty = false := by
      cases hn : numsOf sysValues with
      | nil => exact absurd hn h1
      | cons a l => rfl
    have e2 : (numsOf diaValues).isEmpty = false := by
      cases hn : numsOf diaValues with
      | nil => exact absurd hn h2
      | cons a l => rfl
    refine ⟨?_, ?_, ?_⟩
    · simp [compute_blood_pressure_stats, e1, e2, MetricSummary.countField]
    · simp [compute_blood_pressure_stats, e1, e2, MetricSummary.bpElevated]
    · intro e he
      simp [compute_blood_pressure_stats, e1, e2, MetricSummary.bpElevated] at he
      subst he
      calc
        _ ≤ (((numsOf sysValues).take
                (min (numsOf sysValues).length (numsOf diaValues).length)).zip
              ((numsOf diaValues).take
                (min (numsOf sysValues).length (numsOf diaValues).length))).length :=
          List.countP_le_length _
        _ ≤ min (numsOf sysValues).length (numsOf diaValues).length := by
          rw [List.length_zip, List.length_take, List.length_take]
          omega

/-- Witness for C5 at two systolic samples and one diastolic sample: the count
is one and the single 150 over 95 pair is elevated. -/
theorem C5_blood_pressure_pairing_witness :
    numsOf [Sample.num (.finite 150), Sample.num (.finite 120)] ≠ [] ∧
      numsOf [Sample.num (.finite 95)] ≠ [] ∧
      ((compute_blood_pressure_stats [Sample.num (.finite 150), Sample.num (.finite 120)]
            [Sample.num (.finite 95)]).countField =
          some (min (numsOf [Sample.num (.finite 150), Sample.num (.finite 120)]).length
            (numsOf [Sample.num (.finite 95)]).length) ∧
        (compute_blood_pressure_stats [Sample.num (.finite 150), Sample.num (.finite 120)]
            [Sample.num (.finite 95)]).bpElevated =
          some
            ((((numsOf [Sample.num (.finite 150), Sample.num (.finite 120)]).take
                  (min (numsOf [Sample.num (.finite 150), Sample.num (.finite 120)]).length
                    (numsOf [Sample.num (.finite 95)]).length)).zip
                ((numsOf [Sample.num (.finite 95)]).take
                  (min (numsOf [Sample.num (.finite 150), Sample.num (.finite 120)]).length
                    (numsOf [Sample.num (.finite 95)]).length))).countP
              (fun p => PyFloat.le (.finite 140) p.1 || PyFloat.le (.finite 90) p.2)) ∧
        ∀ e,
          (compute_blood_pressure_stats [Sample.num (.finite 150), Sample.num (.finite 120)]
              [Sample.num (.finite 95)]).bpElevated = some e →
          e ≤ min (numsOf [Sample.num (.finite 150), Sample.num (.finite 120)]).length
            (numsOf [Sample.num (.finite 95)]).length) :=
  ⟨by decide, by decide,
    (C5_blood_pressure_pairing [Sample.num (.finite 150), Sample.num (.finite 120)]
        [Sample.num (.finite 95)]).2 (by decide) (by decide)⟩

attribute [local semireducible] Rat.mul Rat.inv Rat.add Rat.sub in
/-- C6: with at least one classified sleep sample, the result carries the
stage histogram, the fragmentation percentage Awake over total times 100
rounded to one decimal and lying between 0 and 100, and the quality verdict
good exactly when fragmentation is below 20 with REM and Deep present, else
fair exactly when fragmentation is below 35, else poor; the scenario input
Core, REM, Awake, Awake yields stages one, one, zero, two, fragmentation 50,
quality poor, REM present and Deep absent. -/
theorem C6_sleep_quality :
    (∀ values : List Sample, (sleepStages values).total ≠ 0 →
        (compute_sleep_stats values).sleepParts =
            some (sleepStages values, fragSpec values, sleepQuality values,
              decide (0 < (sleepStages values).rem), decide (0 < (sleepStages values).deep)) ∧
          0 ≤ fragSpec values ∧ fragSpec values ≤ 100 ∧
          (sleepQuality values = "good" ↔
            fragSpec values < 20 ∧ 0 < (sleepStages values).rem ∧
              0 < (sleepStages values).deep) ∧
          (sleepQuality values = "fair" ↔
            ¬(fragSpec values < 20 ∧ 0 < (sleepStages values).rem ∧
                0 < (sleepStages values).deep) ∧ fragSpec values < 35) ∧
          (sleepQuality values = "poor" ↔
            ¬(fragSpec values < 20 ∧ 0 < (sleepStages values).rem ∧
                0 < (sleepStages values).deep) ∧ ¬ fragSpec values < 35)) ∧
      (compute_sleep_stats (parse_values ("Core\nREM\nAwake\nAwake\n".toList))).sleepParts =
        some (⟨1, 1, 0, 2⟩, 50, "poor", true, false) := by
  constructor
  · intro values h
    have hgf : ("good" : String) ≠ "fair" := by decide
    have hgp : ("good" : String) ≠ "poor" := by decide
    have hfp : ("fair" : String) ≠ "poor" := by decide
    refine ⟨?_, ?_, ?_, ?_, ?_, ?_⟩
    · simp only [compute_sleep_stats, h, if_false, MetricSummary.sleepParts,
        fragSpec, sleepQuality]
    · exact roundTo_nonneg _ _ (by positivity)
    · have htot : (0 : ℚ) < ((sleepStages values).total : ℚ) := by
        exact_mod_cast Nat.pos_of_ne_zero h
      have hle : ((sleepStages values).awake : ℚ) / ((sleepStages values).total : ℚ) ≤ 1 := by
        rw [div_le_one htot]
        have : (sleepStages values).awake ≤ (sleepStages values).total := by
          unfold SleepStages.total
          omega
        exact_mod_cast this
      have hb : ((sleepStages values).awake : ℚ) / ((sleepStages values).total : ℚ) * 100 ≤ 100 := by
        calc ((sleepStages values).awake : ℚ) / ((sleepStages values).total : ℚ) * 100
            ≤ 1 * 100 := by
              exact mul_le_mul_of_nonneg_right hle (by norm_num)
          _ = 100 := by norm_num
      have := roundTo_le_intCast 1 _ 100 (by exact_mod_cast hb)
      exact_mod_cast this
    · unfold sleepQuality
      split_ifs with hc1 hc2 <;>
        exact ⟨fun h2 => by simp_all, fun h2 => by simp_all⟩
    · unfold sleepQuality
      split_ifs with hc1 hc2 <;>
        exact ⟨fun h2 => by simp_all, fun h2 => by simp_all⟩
    · unfold sleepQuality
      split_ifs with hc1 hc2 <;>
        exact ⟨fun h2 => by simp_all, fun h2 => by simp_all⟩
  · decide

/-- Witness for C6 at a single Awake sample: fragmentation 100 and quality
poor. -/
theorem C6_sleep_quality_witness :
    (sleepStages [Sample.text "Awake"]).total ≠ 0 ∧
      ((compute_sleep_stats [Sample.text "Awake"]).sleepParts =
          some (sleepStages [Sample.text "Awake"], fragSpec [Sample.text "Awake"],
            sleepQuality [Sample.text "Awake"],
            decide (0 < (sleepStages [Sample.text "Awake"]).rem),
            decide (0 < (sleepStages [Sample.text "Awake"]).deep)) ∧
        0 ≤ fragSpec [Sample.text "Awake"] ∧ fragSpec [Sample.text "Awake"] ≤ 100 ∧
        (sleepQuality [Sample.text "Awake"] = "good" ↔
          fragSpec [Sample.text "Awake"] < 20 ∧ 0 < (sleepStages [Sample.text "Awake"]).rem ∧
            0 < (sleepStages [Sample.text "Awake"]).deep) ∧
        (sleepQuality [Sample.text "Awake"] = "fair" ↔
          ¬(fragSpec [Sample.text "Awake"] < 20 ∧
              0 < (sleepStages [Sample.text "Awake"]).rem ∧
              0 < (sleepStages [Sample.text "Awake"]).deep) ∧
            fragSpec [Sample.text "Awake"] < 35) ∧
        (sleepQuality [Sample.text "Awake"] = "poor" ↔
          ¬(fragSpec [Sample.text "Awake"] < 20 ∧
              0 < (sleepStages [Sample.text "Awake"]).rem ∧
              0 < (sleepStages [Sample.text "Awake"]).deep) ∧
            ¬ fragSpec [Sample.text "Awake"] < 35)) :=
  ⟨by decide, C6_sleep_quality.1 [Sample.text "Awake"] (by decide)⟩

theorem foldl_bpScanStep_fst (fd : List (String × List String))
    (acc : Option String × Option String)
    (h : ∀ p ∈ fd, containsSub sysSub (pyLower p.1) = false) :
    (fd.foldl bpScanStep acc).1 = acc.1 := by
  induction fd generalizing acc with
  | nil => rfl
  | cons p fd ih =>
    have hp : containsSub sysSub (pyLower p.1) = false := h p (List.mem_cons_self p fd)
    have hr := ih (bpScanStep acc p) (fun q hq => h q (List.mem_cons_of_mem p hq))
    rw [List.foldl_cons, hr]
    unfold bpScanStep
    rw [hp]
    simp only [Bool.false_eq_true, if_false]
    split <;> rfl

theorem foldl_bpScanStep_snd (fd : List (String × List String))
    (acc : Option String × Option String)
    (h : ∀ p ∈ fd, containsSub diaSub (pyLower p.1) = false) :
    (fd.foldl bpScanStep acc).2 = acc.2 := by
  induction fd generalizing acc with
  | nil => rfl
  | cons p fd ih =>
    have hp : containsSub diaSub (pyLower p.1) = false := h p (List.mem_cons_self p fd)
    have hr := ih (bpScanStep acc p) (fun q hq => h q (List.mem_cons_of_mem p hq))
    rw [List.foldl_cons, hr]
    unfold bpScanStep
    rw [hp]
    split <;> rfl

theorem ingestMerge_frame (prior : DailyRecord) (fd : List (String × List String))
    (ts : String) (k : String) (hk : k ≠ "_updated")
    (h : ∀ q ∈ computedPairs fd, q.1 ≠ k) :
    lookupKey (ingestMerge prior fd ts) k = lookupKey prior k := by
  unfold ingestMerge
  rw [lookupKey_setKey, if_neg hk, lookupKey_applyPairs, lastVal_eq_none _ _ h]
  rfl

/-- With a lone blood-pressure family present, the paired branch is skipped
and the computed pairs are exactly the generic loop entries. -/
theorem computedPairs_lone_bp (fd : List (String × List String))
    (h : (∀ p ∈ fd, containsSub diaSub (pyLower p.1) = false) ∨
         (∀ p ∈ fd, containsSub sysSub (pyLower p.1) = false)) :
    computedPairs fd =
      fd.filterMap
        (fun p =>
          if containsSub sysSub (pyLower p.1) || containsSub diaSub (pyLower p.1) then none
          else
            some (p.1,
              RecVal.summary (compute_stats (parse_values (p.2.headD "").toList) p.1))) := by
  unfold computedPairs
  rcases h with h | h
  · have h2 : (bpScan fd).2 = none := foldl_bpScanStep_snd fd (none, none) h
    cases hb : bpScan fd with
    | mk a b =>
      rw [hb] at h2
      simp only at h2
      subst h2
      cases a <;> simp
  · have h2 : (bpScan fd).1 = none := foldl_bpScanStep_fst fd (none, none) h
    cases hb : bpScan fd with
    | mk a b =>
      rw [hb] at h2
      simp only at h2
      subst h2
      cases b <;> simp

/-- C10: a submission holding a field of one blood-pressure family with no
matching field of the other family contributes nothing: every key containing
either marker, and the synthetic bloodpressure key when no submitted field is
literally named so, keeps its prior value in the merged record. -/
theorem C10_lone_bp_field_discarded (prior : DailyRecord)
    (fd : List (String × List String)) (ts : String)
    (h : (∃ p ∈ fd, containsSub sysSub (pyLower p.1) = true) ∧
           (∀ p ∈ fd, containsSub diaSub (pyLower p.1) = false) ∨
         (∃ p ∈ fd, containsSub diaSub (pyLower p.1) = true) ∧
           (∀ p ∈ fd, containsSub sysSub (pyLower p.1) = false)) :
    (∀ k0 : String,
        containsSub sysSub (pyLower k0) = true ∨ containsSub diaSub (pyLower k0) = true →
        lookupKey (ingestMerge prior fd ts) k0 = lookupKey prior k0) ∧
      ((∀ p ∈ fd, p.1 ≠ "bloodpressure") →
        lookupKey (ingestMerge prior fd ts) "bloodpressure" =
          lookupKey prior "bloodpressure") := by
  have hpairs := computedPairs_lone_bp fd (h.imp (fun x => x.2) (fun x => x.2))
  constructor
  · intro k0 hk0
    have hne : k0 ≠ "_updated" := by
      intro he
      subst he
      revert hk0
      decide
    apply ingestMerge_frame prior fd ts k0 hne
    rw [hpairs]
    intro q hq hqk
    obtain ⟨p, hp, hfp⟩ := List.mem_filterMap.mp hq
    by_cases hskip :
        (containsSub sysSub (pyLower p.1) || containsSub diaSub (pyLower p.1)) = true
    · rw [if_pos hskip] at hfp
      exact Option.noConfusion hfp
    · rw [if_neg hskip] at hfp
      have hq1 : q.1 = p.1 := by
        rw [← Option.some_inj.mp hfp]
      rw [hq1] at hqk
      rw [hqk] at hskip
      rcases hk0 with hs | hd
      · exact hskip (by rw [hs]; rfl)
      · exact hskip (by rw [hd]; simp)
  · intro hnobp
    have hne : ("bloodpressure" : String) ≠ "_updated" := by decide
    apply ingestMerge_frame prior fd ts "bloodpressure" hne
    rw [hpairs]
    intro q hq hqk
    obtain ⟨p, hp, hfp⟩ := List.mem_filterMap.mp hq
    by_cases hskip :
        (containsSub sysSub (pyLower p.1) || containsSub diaSub (pyLower p.1)) = true
    · rw [if_pos hskip] at hfp
      exact Option.noConfusion hfp
    · rw [if_neg hskip] at hfp
      have hq1 : q.1 = p.1 := by
        rw [← Option.some_inj.mp hfp]
      exact hnobp p hp (hq1 ▸ hqk)

/-- Witness for C10: one systolic field alone, over a prior record holding an
old bloodpressure value, leaves both the field name and the bloodpressure key
untouched. -/
theorem C10_lone_bp_field_discarded_witness :
    ((∃ p ∈ [(("BloodPressureSystolic" : String), (["120"] : List String))],
          containsSub sysSub (pyLower p.1) = true) ∧
        (∀ p ∈ [(("BloodPressureSystolic" : String), (["120"] : List String))],
          containsSub diaSub (pyLower p.1) = false)) ∧
      lookupKey
          (ingestMerge [("bloodpressure", RecVal.blob "old")]
            [("BloodPressureSystolic", ["120"])] "t")
          "BloodPressureSystolic" =
        lookupKey [("bloodpressure", RecVal.blob "old")] "BloodPressureSystolic" ∧
      lookupKey
          (ingestMerge [("bloodpressure", RecVal.blob "old")]
            [("BloodPressureSystolic", ["120"])] "t")
          "bloodpressure" =
        lookupKey [("bloodpressure", RecVal.blob "old")] "bloodpressure" :=
  ⟨⟨⟨("BloodPressureSystolic", ["120"]), by decide, by decide⟩, by decide⟩,
    (C10_lone_bp_field_discarded [("bloodpressure", RecVal.blob "old")]
        [("BloodPressureSystolic", ["120"])] "t"
        (Or.inl ⟨⟨("BloodPressureSystolic", ["120"]), by decide, by decide⟩, by decide⟩)).1
      "BloodPressureSystolic" (Or.inl (by decide)),
    (C10_lone_bp_field_discarded [("bloodpressure", RecVal.blob "old")]
        [("BloodPressureSystolic", ["120"])] "t"
        (Or.inl ⟨⟨("BloodPressureSystolic", ["120"]), by decide, by decide⟩, by decide⟩)).2
      (by decide)⟩

theorem asciiLower_digit (c : Char) (h : isDig c = true) : asciiLower c = c := by
  have hnc : ¬('A' ≤ c ∧ c ≤ 'Z') := by
    rintro ⟨h1, _⟩
    simp only [isDig, Bool.and_eq_true, decide_eq_true_eq] at h
    exact absurd (le_trans h1 h.2) (by decide)
  unfold asciiLower
  rw [if_neg hnc]

theorem takeWhile_all (p : Char → Bool) (l : List Char) :
    ∀ c ∈ l.takeWhile p, p c = true := by
  induction l with
  | nil => simp [List.takeWhile]
  | cons a l ih =>
    by_cases hp : p a
    · simp only [List.takeWhile, hp, List.mem_cons]
      rintro c (rfl | hc)
      · exact hp
      · exact ih c hc
    · simp [List.takeWhile, hp]

theorem dropWhile_head_false (p : Char → Bool) (l : List Char) (c : Char)
    (h : (l.dropWhile p).head? = some c) : p c = false := by
  induction l with
  | nil => simp [List.dropWhile] at h
  | cons a l ih =>
    by_cases hp : p a
    · simp only [List.dropWhile, hp, if_true] at h
      exact ih h
    · simp only [List.dropWhile, hp, if_false] at h
      simp only [List.head?, Option.some_inj] at h
      subst h
      exact Bool.eq_false_iff.mpr hp

theorem digitRun_exact (ds rest : List Char) (acc nd : ℕ)
    (hds : ∀ c ∈ ds, isDig c = true)
    (hrest : ∀ c, rest.head? = some c → isDig c = false ∧ c ≠ '_') :
    ∃ v n, digitRun acc nd (ds ++ rest) = (v, n, rest) := by
  induction ds generalizing acc nd with
  | nil =>
    cases rest with
    | nil => exact ⟨acc, nd, rfl⟩
    | cons c r =>
      obtain ⟨h1, h2⟩ := hrest c rfl
      refine ⟨acc, nd, ?_⟩
      rw [List.nil_append]
      unfold digitRun
      simp [h1, h2]
  | cons d ds ih =>
    have hd : isDig d = true := hds d (List.mem_cons_self _ _)
    have hds2 : ∀ c ∈ ds, isDig c = true := fun c hc => hds c (List.mem_cons_of_mem _ hc)
    obtain ⟨v, n, hvn⟩ := ih (10 * acc + (d.toNat - 48)) (nd + 1) hds2
    refine ⟨v, n, ?_⟩
    rw [List.cons_append]
    unfold digitRun
    rw [if_pos hd]
    exact hvn

theorem lineToSample_eq (l : List Char) (hv : (pyStrip l).isEmpty = false) :
    lineToSample l =
      some
        (match pyFloatOfLine (pyStrip l) with
         | some x => Sample.num x
         | none => Sample.text (String.mk (pyStrip l))) := by
  cases hf : pyFloatOfLine (pyStrip l) <;> simp [lineToSample, hv, hf]

theorem filterMap_lineToSample (ls : List (List Char)) :
    ls.filterMap lineToSample =
      ((ls.map pyStrip).filter (fun v => !v.isEmpty)).map
        (fun v =>
          match pyFloatOfLine v with
          | some x => Sample.num x
          | none => Sample.text (String.mk v)) := by
  induction ls with
  | nil => rfl
  | cons l ls ih =>
    by_cases hv : (pyStrip l).isEmpty
    · have hnone : lineToSample l = none := by simp [lineToSample, hv]
      simp [List.filterMap_cons, hnone, List.filter_cons, hv, ih]
    · have hv2 : (pyStrip l).isEmpty = false := Bool.eq_false_iff.mpr hv
      rw [List.filterMap_cons, lineToSample_eq l hv2]
      simp [List.filter_cons, hv2, ih]

theorem parseFrac_complete (iv : ℕ) (R : List Char)
    (h : R = [] ∨ ∃ fs, R = '.' :: fs ∧ fs.all isDig = true) :
    ∃ q, parseFrac iv R = some (q, []) := by
  rcases h with rfl | ⟨fs, rfl, hall⟩
  · exact ⟨(iv : ℚ), rfl⟩
  · cases fs with
    | nil => exact ⟨(iv : ℚ), rfl⟩
    | cons d fs2 =>
      have hall2 : ∀ a ∈ d :: fs2, isDig a = true := fun a ha =>
        List.all_eq_true.mp hall a ha
      have hd : isDig d = true := hall2 d (List.mem_cons_self _ _)
      obtain ⟨v2, n2, h2⟩ :=
        digitRun_exact (d :: fs2) [] 0 0 hall2 (fun a ha => by simp at ha)
      rw [List.append_nil] at h2
      refine ⟨(iv : ℚ) + (v2 : ℚ) / 10 ^ n2, ?_⟩
      simp only [parseFrac, hd, if_true, h2]

theorem parseMantissa_complete (c : Char) (t : List Char)
    (hd : isDig c = true)
    (hrest : (c :: t).dropWhile isDig = [] ∨
      ∃ fs, (c :: t).dropWhile isDig = '.' :: fs ∧ fs.all isDig = true) :
    ∃ q, parseMantissa (c :: t) = some (q, []) := by
  have hds := takeWhile_all isDig (c :: t)
  have hsplit : (c :: t).takeWhile isDig ++ (c :: t).dropWhile isDig = c :: t :=
    List.takeWhile_append_dropWhile isDig (c :: t)
  have hrhead : ∀ a, ((c :: t).dropWhile isDig).head? = some a →
      isDig a = false ∧ a ≠ '_' := by
    intro a ha
    refine ⟨dropWhile_head_false _ _ _ ha, ?_⟩
    rcases hrest with hemp | ⟨fs, hfs, _⟩
    · rw [hemp] at ha
      exact absurd ha (by simp)
    · rw [hfs] at ha
      simp only [List.head?, Option.some_inj] at ha
      subst ha
      decide
  obtain ⟨v1, n1, h1⟩ :=
    digitRun_exact ((c :: t).takeWhile isDig) ((c :: t).dropWhile isDig) 0 0 hds hrhead
  rw [hsplit] at h1
  have hcdot : ¬ c = '.' := by
    intro he
    rw [he] at hd
    exact absurd hd (by decide)
  obtain ⟨q, hq⟩ := parseFrac_complete v1 ((c :: t).dropWhile isDig) hrest
  refine ⟨q, ?_⟩
  simp only [parseMantissa, if_neg hcdot, hd, if_true, h1]
  exact hq

theorem specDecimal_pyFloat_accepts (v : List Char)
    (h : specDecimalAccepts v = true) : (pyFloatOfLine v).isSome = true := by
  unfold specDecimalAccepts at h
  simp only [Bool.and_eq_true, Bool.not_eq_true', Bool.or_eq_true] at h
  obtain ⟨hne, hrest0⟩ := h
  obtain ⟨c, t, hcs⟩ : ∃ c t, (splitSign v).2 = c :: t := by
    cases hcst : (splitSign v).2 with
    | nil => rw [hcst] at hne; simp [List.takeWhile] at hne
    | cons c t => exact ⟨c, t, rfl⟩
  have hd : isDig c = true := by
    by_cases hdc : isDig c
    · exact hdc
    · rw [hcs] at hne
      simp [List.takeWhile, hdc] at hne
  have hrest : (c :: t).dropWhile isDig = [] ∨
      ∃ fs, (c :: t).dropWhile isDig = '.' :: fs ∧ fs.all isDig = true := by
    rw [hcs] at hrest0
    rcases hrest0 with hemp | hm
    · left
      exact List.isEmpty_iff.mp hemp
    · cases hdw : (c :: t).dropWhile isDig with
      | nil => exact Or.inl rfl
      | cons b r =>
        rw [hdw] at hm
        right
        split at hm
        · next fs heq =>
            obtain ⟨hb, hr⟩ := List.cons_eq_cons.mp heq
            subst hb
            subst hr
            exact ⟨r, rfl, hm⟩
        · exact absurd hm (by simp)
  have hmap : (splitSign v).2.map asciiLower = c :: t.map asciiLower := by
    rw [hcs, List.map_cons, asciiLower_digit c hd]
  have hinf : ¬((splitSign v).2.map asciiLower = "inf".toList ∨
      (splitSign v).2.map asciiLower = "infinity".toList) := by
    rintro (he | he)
    · rw [hmap] at he
      have hci : c = 'i' := by
        have he2 : ("inf".toList : List Char) = 'i' :: ['n', 'f'] := rfl
        rw [he2] at he
        exact (List.cons_eq_cons.mp he).1
      rw [hci] at hd
      exact absurd hd (by decide)
    · rw [hmap] at he
      have hci : c = 'i' := by
        have he2 : ("infinity".toList : List Char) = 'i' :: "nfinity".toList := rfl
        rw [he2] at he
        exact (List.cons_eq_cons.mp he).1
      rw [hci] at hd
      exact absurd hd (by decide)
  have hnan : ¬((splitSign v).2.map asciiLower = "nan".toList) := by
    intro he
    rw [hmap] at he
    have hci : c = 'n' := by
      have he2 : ("nan".toList : List Char) = 'n' :: ['a', 'n'] := rfl
      rw [he2] at he
      exact (List.cons_eq_cons.mp he).1
    rw [hci] at hd
    exact absurd hd (by decide)
  obtain ⟨q, hq⟩ := parseMantissa_complete c t hd hrest
  unfold pyFloatOfLine
  simp only [if_neg hinf, if_neg hnan]
  rw [hcs, hq]
  rfl

attribute [local semireducible] Rat.mul Rat.inv Rat.add Rat.sub in
/-- C3 counterexample: the claim says a line that is not a plain decimal
numeral, such as 1e3, becomes a Text sample; the Python float constructor
accepts scientific notation, so the code parses 1e3 into the Number 1000. -/
theorem C3_counterexample :
    parse_values ("1e3".toList) = [Sample.num (.finite 1000)] ∧
      specDecimalAccepts (pyStrip ("1e3".toList)) = false := by
  constructor <;> decide

/-- C3 amended: every line is stripped and dropped when empty; every
remaining line becomes exactly one sample, a Number exactly when the Python
float grammar accepts it (which beyond the plain signed decimals of the spec
also admits exponents, underscore separators and the words inf, infinity and
nan), and a Text sample holding the stripped text otherwise, so no line is
ever rejected; and every plain signed decimal is accepted as a Number. -/
theorem C3_parse_classification :
    (∀ decoded : List Char,
        parse_values decoded =
          (((linesOf decoded).map pyStrip).filter (fun v => !v.isEmpty)).map
            (fun v =>
              match pyFloatOfLine v with
              | some x => Sample.num x
              | none => Sample.text (String.mk v))) ∧
      ∀ v : List Char, specDecimalAccepts v = true → (pyFloatOfLine v).isSome = true := by
  constructor
  · intro decoded
    exact filterMap_lineToSample (linesOf decoded)
  · exact specDecimal_pyFloat_accepts

/-- Witness for C3 amended: the signed decimal -12.5 passes the spec grammar
and the float parser accepts it. -/
theorem C3_parse_classification_witness :
    specDecimalAccepts ("-12.5".toList) = true ∧
      (pyFloatOfLine ("-12.5".toList)).isSome = true :=
  ⟨by decide, C3_parse_classification.2 ("-12.5".toList) (by decide)⟩

theorem pySum_map_finite_aux (qs : List ℚ) (a : ℚ) :
    (qs.map PyFloat.finite).foldl PyFloat.add (.finite a) = .finite (a + qs.sum) := by
  induction qs generalizing a with
  | nil => simp
  | cons q qs ih =>
    simp only [List.map_cons, List.foldl_cons]
    rw [show PyFloat.add (.finite a) (.finite q) = .finite (a + q) from rfl, ih,
      List.sum_cons]
    ring_nf

theorem pySum_map_finite (qs : List ℚ) :
    pySum (qs.map PyFloat.finite) = .finite qs.sum := by
  unfold pySum
  rw [pySum_map_finite_aux]
  norm_num

theorem sum_all_eq (qs : List ℚ) (c : ℚ) (h : ∀ q ∈ qs, q = c) :
    qs.sum = qs.length * c := by
  induction qs with
  | nil => simp
  | cons q qs ih =>
    have hq : q = c := h q (List.mem_cons_self _ _)
    have hs := ih (fun x hx => h x (List.mem_cons_of_mem _ hx))
    simp only [List.sum_cons, hq, hs, List.length_cons]
    push_cast
    ring

theorem roundToR_nonneg (nd : ℕ) (x : ℝ) (h : 0 ≤ x) : 0 ≤ roundToR nd x := by
  unfold roundToR
  have h10 : (0 : ℝ) < 10 ^ nd := by positivity
  apply div_nonneg _ (le_of_lt h10)
  have hz : (0 : ℤ) ≤ rheR (x * 10 ^ nd) := by
    unfold rheR
    apply le_rhe
    push_cast
    positivity
  exact_mod_cast hz

theorem roundToR_zero (nd : ℕ) : roundToR nd 0 = 0 := by
  unfold roundToR rheR
  rw [zero_mul, show ((0 : ℝ)) = ((0 : ℤ) : ℝ) by norm_num, rhe_intCast]
  norm_num

theorem map_finite_comp (g : ℚ → ℚ) (qs : List ℚ) :
    qs.map (fun q => PyFloat.finite (g q)) = (qs.map g).map PyFloat.finite := by
  rw [List.map_map]
  rfl

theorem glucose_isEmpty_false (values : List Sample) (hne : numsOf values ≠ []) :
    (numsOf values).isEmpty = false := by
  cases hn2 : numsOf values with
  | nil => exact absurd hn2 hne
  | cons a l => rfl

theorem glucose_stdDev_eq (values : List Sample) (qs : List ℚ)
    (hqs : numsOf values = qs.map PyFloat.finite) (hne : numsOf values ≠ []) :
    (compute_blood_glucose_stats values).stdDevField =
      some (.finiteR (roundToR 1 (Real.sqrt
        (((qs.map (fun q => (q - qs.sum / qs.length) ^ 2)).sum / qs.length : ℚ) : ℝ)))) := by
  have e1 := glucose_isEmpty_false values hne
  have havg : (pySum (numsOf values)).divNat (numsOf values).length =
      .finite (qs.sum / qs.length) := by
    rw [hqs, pySum_map_finite, List.length_map]
    rfl
  have hmap : (numsOf values).map
        (fun x => (x.sub (.finite (qs.sum / qs.length))).sq) =
      qs.map (fun q => PyFloat.finite ((q - qs.sum / qs.length) ^ 2)) := by
    rw [hqs, List.map_map]
    apply List.map_congr_left
    intro q hq
    show PyFloat.sq (PyFloat.sub (.finite q) (.finite (qs.sum / qs.length))) = _
    simp only [PyFloat.sub, PyFloat.sq]
    congr 1
    ring
  have hvar : (pySum ((numsOf values).map
        (fun x => (x.sub ((pySum (numsOf values)).divNat (numsOf values).length)).sq))).divNat
        (numsOf values).length =
      .finite ((qs.map (fun q => (q - qs.sum / qs.length) ^ 2)).sum / qs.length) := by
    rw [havg, hmap, map_finite_comp, pySum_map_finite, hqs, List.length_map]
    rfl
  have hv0 : (0 : ℚ) ≤
      (qs.map (fun q => (q - qs.sum / qs.length) ^ 2)).sum / (qs.length : ℚ) := by
    apply div_nonneg
    · apply List.sum_nonneg
      intro x hx
      obtain ⟨q, hq, rfl⟩ := List.mem_map.mp hx
      positivity
    · positivity
  simp only [compute_blood_glucose_stats, e1, Bool.false_eq_true, if_false,
    MetricSummary.stdDevField, hvar]
  rw [show pyPowHalf
        (.finite ((qs.map (fun q => (q - qs.sum / qs.length) ^ 2)).sum / qs.length)) =
      .finiteR (Real.sqrt
        (((qs.map (fun q => (q - qs.sum / qs.length) ^ 2)).sum / qs.length : ℚ) : ℝ)) by
    simp [pyPowHalf, not_lt.mpr hv0]]
  rfl

theorem glucose_inRange_eq (values : List Sample) (hne : numsOf values ≠ []) :
    (compute_blood_glucose_stats values).inRangeField =
      some (roundTo 1 ((((numsOf values).countP
          (fun v => PyFloat.le (.finite 70) v && PyFloat.le v (.finite 180)) : ℚ)) /
        (numsOf values).length * 100)) := by
  have e1 := glucose_isEmpty_false values hne
  simp only [compute_blood_glucose_stats, e1, Bool.false_eq_true, if_false,
    MetricSummary.inRangeField]

/-- C7 counterexample: the line inf parses to a numeric sample, every numeric
sample of that input is equal, yet the reported standard deviation is nan, not
zero and not a nonnegative value, because the variance of an infinite sample
is nan and nan propagates through the square root and the rounding. -/
theorem C7_counterexample :
    parse_values ("inf".toList) = [Sample.num (.inf false)] ∧
      (∀ x ∈ numsOf (parse_values ("inf".toList)), x = PyFloat.inf false) ∧
      numsOf (parse_values ("inf".toList)) ≠ [] ∧
      (compute_blood_glucose_stats (parse_values ("inf".toList))).stdDevField =
        some PyFloatExt.nanR ∧
      (PyFloatExt.nanR ≠ PyFloatExt.finiteR 0) :=
  ⟨by decide, by decide, by decide, rfl, fun h => PyFloatExt.noConfusion h⟩

/-- C7 amended: with no numeric samples the glucose result is the bare count
zero; with at least one numeric sample the in-range percentage lies between 0
and 100, and when all numeric samples are finite the reported standard
deviation is the population standard deviation rounded to one decimal — the
real square root of the mean squared deviation with no Bessel correction — it
is nonnegative, and it is zero whenever all numeric samples are equal. -/
theorem C7_glucose_stats (values : List Sample) :
    (numsOf values = [] → compute_blood_glucose_stats values = .countOnly 0) ∧
      (numsOf values ≠ [] →
        (∀ p : ℚ, (compute_blood_glucose_stats values).inRangeField = some p →
            0 ≤ p ∧ p ≤ 100) ∧
          ∀ qs : List ℚ, numsOf values = qs.map PyFloat.finite →
            (compute_blood_glucose_stats values).stdDevField =
                some (.finiteR (roundToR 1 (Real.sqrt
                  (((qs.map (fun q => (q - qs.sum / qs.length) ^ 2)).sum /
                      qs.length : ℚ) : ℝ)))) ∧
              (∀ s : ℝ, (compute_blood_glucose_stats values).stdDevField =
                  some (.finiteR s) → 0 ≤ s) ∧
              ∀ c : ℚ, (∀ q ∈ qs, q = c) →
                (compute_blood_glucose_stats values).stdDevField =
                  some (.finiteR 0)) := by
  constructor
  · intro h
    simp [compute_blood_glucose_stats, h]
  · intro hne
    constructor
    · intro p hp
      rw [glucose_inRange_eq values hne] at hp
      injection hp with hp2
      subst hp2
      have hlen : 0 < (numsOf values).length := List.length_pos.mpr hne
      have hltQ : (0 : ℚ) < ((numsOf values).length : ℚ) := by exact_mod_cast hlen
      constructor
      · apply roundTo_nonneg
        positivity
      · have hir : (((numsOf values).countP
            (fun v => PyFloat.le (.finite 70) v && PyFloat.le v (.finite 180)) : ℕ) : ℚ) ≤
            ((numsOf values).length : ℚ) := by
          exact_mod_cast List.countP_le_length _
        have h1 : (((numsOf values).countP
            (fun v => PyFloat.le (.finite 70) v && PyFloat.le v (.finite 180)) : ℕ) : ℚ) /
            ((numsOf values).length : ℚ) ≤ 1 := (div_le_one hltQ).mpr hir
        have hq : (((numsOf values).countP
            (fun v => PyFloat.le (.finite 70) v && PyFloat.le v (.finite 180)) : ℕ) : ℚ) /
            ((numsOf values).length : ℚ) * 100 ≤ 100 := by
          calc _ ≤ (1 : ℚ) * 100 := mul_le_mul_of_nonneg_right h1 (by norm_num)
            _ = 100 := by norm_num
        have hb := roundTo_le_intCast 1 _ 100 (by exact_mod_cast hq)
        exact_mod_cast hb
    · intro qs hqs
      have hsd := glucose_stdDev_eq values qs hqs hne
      refine ⟨hsd, ?_, ?_⟩
      · intro s hs
        rw [hsd] at hs
        injection hs with hs2
        have hs3 := PyFloatExt.finiteR.inj hs2
        subst hs3
        exact roundToR_nonneg 1 _ (Real.sqrt_nonneg _)
      · intro c hc
        rw [hsd]
        have hlen0 : qs ≠ [] := by
          intro h0
          rw [h0] at hqs
          simp only [List.map_nil] at hqs
          exact hne hqs
        have hlq : 0 < qs.length := List.length_pos.mpr hlen0
        have hlqQ : ((qs.length : ℚ)) ≠ 0 := by
          have : (0 : ℚ) < (qs.length : ℚ) := by exact_mod_cast hlq
          exact ne_of_gt this
        have hm : qs.sum / (qs.length : ℚ) = c := by
          rw [sum_all_eq qs c hc]
          field_simp
        have hmap0 : qs.map (fun q => (q - qs.sum / qs.length) ^ 2) =
            qs.map (fun _ => (0 : ℚ)) := by
          apply List.map_congr_left
          intro q hq
          rw [hm, hc q hq]
          ring
        have hsum0 : (qs.map (fun q => (q - qs.sum / qs.length) ^ 2)).sum = 0 := by
          rw [hmap0, sum_all_eq (qs.map (fun _ => (0 : ℚ))) 0 ?_]
          · ring
          · intro x hx
            obtain ⟨q, _, rfl⟩ := List.mem_map.mp hx
            rfl
        rw [hsum0, zero_div]
        norm_num [Real.sqrt_zero, roundToR_zero]

attribute [local semireducible] Rat.mul Rat.inv Rat.add Rat.sub in
/-- Witness for C7 at two equal finite samples of value 100: the standard
deviation is zero and the in-range bound holds. -/
theorem C7_glucose_stats_witness :
    numsOf [Sample.num (.finite 100), Sample.num (.finite 100)] ≠ [] ∧
      numsOf [Sample.num (.finite 100), Sample.num (.finite 100)] =
        ([100, 100] : List ℚ).map PyFloat.finite ∧
      (∀ q ∈ ([100, 100] : List ℚ), q = (100 : ℚ)) ∧
      (compute_blood_glucose_stats
          [Sample.num (.finite 100), Sample.num (.finite 100)]).stdDevField =
        some (.finiteR 0) ∧
      ∀ p : ℚ,
        (compute_blood_glucose_stats
            [Sample.num (.finite 100), Sample.num (.finite 100)]).inRangeField =
          some p → 0 ≤ p ∧ p ≤ 100 :=
  ⟨by decide, by decide, by decide,
    (((C7_glucose_stats [Sample.num (.finite 100), Sample.num (.finite 100)]).2
          (by decide)).2 [100, 100] (by decide)).2.2 100 (by decide),
    ((C7_glucose_stats [Sample.num (.finite 100), Sample.num (.finite 100)]).2
        (by decide)).1⟩

end AppleHealth
